import Mathlib

/-
Verification of the ingestion-and-retrieval core of the RAG PDF/website QA
server (src/server.js, with src/unnamed/part_000 an earlier revision of the
same file).  Text is modelled as `List Char`, numeric vector entries as `ℚ`
(every JS float value is a rational), real-valued quantities built from
`Math.sqrt` as `ℝ`.  JS loop counters are modelled as `Nat`; the loops in
question only ever step a counter upward from 0.
-/

/- ===================== Chunker (src/server.js:45-51) =====================

   function chunkText(text, chunkSize = 1500, overlap = 300) {
     const chunks = [];
     for (let i = 0; i < text.length; i += chunkSize - overlap) {
       chunks.push(text.slice(i, i + chunkSize));
     }
     return chunks;
   }

   The `for` loop is modelled with explicit fuel so that the non-terminating
   regime (stride `chunkSize - overlap <= 0`, where in JS the counter never
   advances past the text length and the loop runs forever) is represented:
   `none` means the loop has not finished within `fuel` iterations.  For
   `overlap >= chunkSize` the JS stride is `<= 0` and the Nat-truncated
   stride is `0`; in both cases the counter never reaches `text.length`
   when the text is non-empty, so modelling the stride as `chunkSize - overlap`
   over `Nat` preserves exactly which inputs diverge.
   `text.slice(i, i + chunkSize)` on a JS string (start index inside the
   string, end clamped to the length) is `(text.drop i).take chunkSize`. -/

def chunkTextLoop (text : List Char) (chunkSize overlap : Nat) :
    Nat → Nat → Option (List (List Char))
  | fuel, i =>
    if i < text.length then
      match fuel with
      | 0 => none
      | fuel' + 1 =>
        match chunkTextLoop text chunkSize overlap fuel' (i + (chunkSize - overlap)) with
        | some rest => some (((text.drop i).take chunkSize) :: rest)
        | none => none
    else
      some []

/-- Entry point of `chunkText`: run the loop from `i = 0`.  The fuel
`text.length + 1` is enough for every terminating run (the counter moves by
at least 1 per iteration when `overlap < chunkSize`). -/
def chunkText (text : List Char) (chunkSize overlap : Nat) : Option (List (List Char)) :=
  chunkTextLoop text chunkSize overlap (text.length + 1) 0

/-- Number of loop iterations of `chunkText` on a text of length `len` with a
positive stride: the count of multiples of `stride` that are `< len`,
i.e. the ceiling of `len / stride`. -/
def numChunks (len stride : Nat) : Nat := (len + stride - 1) / stride

theorem numChunks_zero (stride : Nat) : numChunks 0 stride = 0 := by
  unfold numChunks
  rcases Nat.eq_zero_or_pos stride with h | h
  · simp [h]
  · exact Nat.div_eq_of_lt (by omega)

theorem numChunks_succ (m stride : Nat) (hs : 0 < stride) (hm : 0 < m) :
    numChunks m stride = numChunks (m - stride) stride + 1 := by
  unfold numChunks
  rcases Nat.lt_or_ge stride m with h | h
  · -- m > stride : both sides use (x + stride)/stride = x/stride + 1
    have h1 : m + stride - 1 = (m - 1 - stride) + stride + stride := by omega
    have h2 : m - stride + stride - 1 = (m - 1 - stride) + stride := by omega
    rw [h1, h2, Nat.add_div_right _ hs, Nat.add_div_right _ hs]
  · -- m ≤ stride : LHS is 1, RHS is 0 + 1
    have h0 : m - stride = 0 := by omega
    have h1 : (m + stride - 1) / stride = 1 := by
      have hlo : 1 ≤ (m + stride - 1) / stride :=
        (Nat.le_div_iff_mul_le hs).mpr (by omega)
      have hhi : (m + stride - 1) / stride < 2 := by
        have := (Nat.le_div_iff_mul_le hs (x := 2) (y := m + stride - 1)).mp
        by_contra hc
        have h2 : 2 * stride ≤ m + stride - 1 := this (by omega)
        omega
      omega
    have h2 : (m - stride + stride - 1) / stride = 0 := by
      rw [h0]
      exact Nat.div_eq_of_lt (by omega)
    rw [h1, h2]

theorem numChunks_lt_iff (len stride k : Nat) (hs : 0 < stride) :
    k < numChunks len stride ↔ k * stride < len := by
  unfold numChunks
  rw [Nat.lt_iff_add_one_le, Nat.le_div_iff_mul_le hs, Nat.succ_mul]
  generalize k * stride = a
  omega

/-- The loop finishes immediately (with the empty chunk list) once the index
has reached the text length. -/
theorem chunkTextLoop_stop (text : List Char) (chunkSize overlap fuel i : Nat)
    (hi : ¬ i < text.length) :
    chunkTextLoop text chunkSize overlap fuel i = some [] := by
  rw [chunkTextLoop.eq_def]
  simp [hi]

/-- With the index still inside the text and no fuel left, the loop is cut off. -/
theorem chunkTextLoop_out (text : List Char) (chunkSize overlap i : Nat)
    (hi : i < text.length) :
    chunkTextLoop text chunkSize overlap 0 i = none := by
  rw [chunkTextLoop.eq_def]
  simp [hi]

/-- One successful loop iteration: push the slice `text.slice(i, i + chunkSize)`
and continue at `i + (chunkSize - overlap)`. -/
theorem chunkTextLoop_step (text : List Char) (chunkSize overlap fuel i : Nat)
    (rest : List (List Char)) (hi : i < text.length)
    (hr : chunkTextLoop text chunkSize overlap fuel (i + (chunkSize - overlap)) = some rest) :
    chunkTextLoop text chunkSize overlap (fuel + 1) i =
      some (((text.drop i).take chunkSize) :: rest) := by
  rw [chunkTextLoop.eq_def]
  simp [hi, hr]

/-- A failing iteration propagates: if the recursive call runs out of fuel, so
does the present one. -/
theorem chunkTextLoop_step_none (text : List Char) (chunkSize overlap fuel i : Nat)
    (hi : i < text.length)
    (hr : chunkTextLoop text chunkSize overlap fuel (i + (chunkSize - overlap)) = none) :
    chunkTextLoop text chunkSize overlap (fuel + 1) i = none := by
  rw [chunkTextLoop.eq_def]
  simp [hi, hr]

/-- Master characterization of the chunking loop in the terminating regime
`overlap < chunkSize`: started at index `i` with enough fuel, it returns the
slices at offsets `i, i + stride, i + 2*stride, ...` for every such offset
below the text length, where `stride = chunkSize - overlap`. -/
theorem chunkTextLoop_spec (text : List Char) (chunkSize overlap : Nat)
    (h : overlap < chunkSize) :
    ∀ fuel i : Nat, text.length < i + fuel * (chunkSize - overlap) →
      chunkTextLoop text chunkSize overlap fuel i =
        some ((List.range (numChunks (text.length - i) (chunkSize - overlap))).map
          (fun k => (text.drop (i + k * (chunkSize - overlap))).take chunkSize)) := by
  have hs : 0 < chunkSize - overlap := by omega
  intro fuel
  induction fuel with
  | zero =>
    intro i hfuel
    have hi : ¬ i < text.length := by omega
    have hlen : text.length - i = 0 := by omega
    rw [chunkTextLoop_stop text chunkSize overlap 0 i hi, hlen, numChunks_zero]
    simp
  | succ fuel ih =>
    intro i hfuel
    by_cases hi : i < text.length
    · have hcond : text.length < (i + (chunkSize - overlap)) + fuel * (chunkSize - overlap) := by
        rw [Nat.succ_mul] at hfuel
        omega
      have hrec := ih (i + (chunkSize - overlap)) hcond
      rw [chunkTextLoop_step text chunkSize overlap fuel i _ hi hrec]
      have hm : 0 < text.length - i := by omega
      have hn : numChunks (text.length - i) (chunkSize - overlap)
          = numChunks (text.length - (i + (chunkSize - overlap))) (chunkSize - overlap) + 1 := by
        rw [numChunks_succ _ _ hs hm]
        congr 2
        omega
      rw [hn, List.range_succ_eq_map, List.map_cons, List.map_map]
      simp only [Nat.zero_mul, Nat.add_zero]
      congr 1
      congr 1
      apply List.map_congr_left
      intro k _
      simp only [Function.comp_apply]
      congr 2
      rw [Nat.succ_mul]
      ring
    · have hlen : text.length - i = 0 := by omega
      rw [chunkTextLoop_stop text chunkSize overlap _ i hi, hlen, numChunks_zero]
      simp

/-- Closed form of `chunkText` when `overlap < chunkSize`: the loop terminates
within the provided fuel and returns the slices at all multiples of the stride
below the text length. -/
theorem chunkText_eq (text : List Char) (chunkSize overlap : Nat) (h : overlap < chunkSize) :
    chunkText text chunkSize overlap =
      some ((List.range (numChunks text.length (chunkSize - overlap))).map
        (fun k => (text.drop (k * (chunkSize - overlap))).take chunkSize)) := by
  have hs : 1 ≤ chunkSize - overlap := by omega
  have h1 : (text.length + 1) * 1 ≤ (text.length + 1) * (chunkSize - overlap) :=
    Nat.mul_le_mul_left _ hs
  rw [Nat.mul_one] at h1
  have hcond : text.length < 0 + (text.length + 1) * (chunkSize - overlap) := by omega
  have := chunkTextLoop_spec text chunkSize overlap h (text.length + 1) 0 hcond
  rw [chunkText, this]
  simp

/-- C1. For every text `T`, chunk size `S` and overlap `O` with `0 ≤ O < S`,
`chunkText` terminates and returns exactly the slices `T.slice(o, o + S)` at
the start offsets `0, S-O, 2*(S-O), ...`, one for every such offset strictly
below `len T` (so consecutive start offsets differ by exactly `S-O`); each
chunk is the substring of length `min S (len T - offset)` (length `S` except
where the window runs past the end of the text, in particular the final
window may be shorter); the last chunk's end offset is `≥ len T`; and every
character position of `T` is covered by at least one chunk's window. -/
theorem c1_chunker_spec (text : List Char) (S O : Nat) (hO : O < S) :
    ∃ cs, chunkText text S O = some cs ∧
      cs = (List.range (numChunks text.length (S - O))).map
        (fun k => (text.drop (k * (S - O))).take S) ∧
      (∀ k, k < cs.length ↔ k * (S - O) < text.length) ∧
      (∀ k, ∀ hk : k < cs.length,
        (cs.get ⟨k, hk⟩).length = min S (text.length - k * (S - O))) ∧
      (cs ≠ [] → text.length ≤ (cs.length - 1) * (S - O) + S) ∧
      (∀ p, p < text.length → ∃ k, k < cs.length ∧ k * (S - O) ≤ p ∧ p < k * (S - O) + S) := by
  have hs : 0 < S - O := by omega
  refine ⟨_, chunkText_eq text S O hO, rfl, ?_, ?_, ?_, ?_⟩
  · -- the start offsets are exactly the multiples of the stride below len T
    intro k
    simp only [List.length_map, List.length_range]
    exact numChunks_lt_iff text.length (S - O) k hs
  · -- each chunk has length min S (len T - offset)
    intro k hk
    simp only [List.get_eq_getElem, List.getElem_map, List.getElem_range]
    rw [List.length_take, List.length_drop]
  · -- the last chunk's end offset reaches the end of the text
    intro hne
    have hlm : ((List.range (numChunks text.length (S - O))).map
        (fun k => (text.drop (k * (S - O))).take S)).length
          = numChunks text.length (S - O) := by
      simp
    rw [hlm]
    have hlen : 0 < numChunks text.length (S - O) := by
      rcases Nat.eq_zero_or_pos (numChunks text.length (S - O)) with h0 | h0
      · exact absurd (by simp [h0]) hne
      · exact h0
    have hstop : ¬ (numChunks text.length (S - O) * (S - O) < text.length) := fun hc =>
      absurd ((numChunks_lt_iff text.length (S - O) _ hs).mpr hc) (lt_irrefl _)
    obtain ⟨m, hm⟩ : ∃ m, numChunks text.length (S - O) = m + 1 :=
      ⟨numChunks text.length (S - O) - 1, by omega⟩
    rw [hm] at hstop ⊢
    rw [Nat.add_mul, Nat.one_mul] at hstop
    have hss : S - O ≤ S := by omega
    simp only [Nat.add_sub_cancel]
    generalize m * (S - O) = a at hstop ⊢
    omega
  · -- coverage: position p lies in the window starting at (p / stride) * stride
    intro p hp
    refine ⟨p / (S - O), ?_, ?_, ?_⟩
    · simp only [List.length_map, List.length_range]
      rw [numChunks_lt_iff text.length (S - O) _ hs]
      exact lt_of_le_of_lt (Nat.div_mul_le_self p (S - O)) hp
    · exact Nat.div_mul_le_self p (S - O)
    · have hmod := Nat.div_add_mod p (S - O)
      have hlt := Nat.mod_lt p hs
      have hcomm : p / (S - O) * (S - O) = (S - O) * (p / (S - O)) := Nat.mul_comm _ _
      have hss : S - O ≤ S := by omega
      generalize hgen : p / (S - O) * (S - O) = a at *
      omega

/-- Witness for C1 at `T = "abcde"`, `S = 2`, `O = 1`. -/
theorem c1_chunker_spec_witness :
    1 < 2 ∧
    ∃ cs, chunkText "abcde".data 2 1 = some cs ∧
      cs = (List.range (numChunks "abcde".data.length (2 - 1))).map
        (fun k => ("abcde".data.drop (k * (2 - 1))).take 2) ∧
      (∀ k, k < cs.length ↔ k * (2 - 1) < "abcde".data.length) ∧
      (∀ k, ∀ hk : k < cs.length,
        (cs.get ⟨k, hk⟩).length = min 2 ("abcde".data.length - k * (2 - 1))) ∧
      (cs ≠ [] → "abcde".data.length ≤ (cs.length - 1) * (2 - 1) + 2) ∧
      (∀ p, p < "abcde".data.length →
        ∃ k, k < cs.length ∧ k * (2 - 1) ≤ p ∧ p < k * (2 - 1) + 2) :=
  ⟨by decide, c1_chunker_spec "abcde".data 2 1 (by decide)⟩

/- ================= Retriever (src/server.js:215-217) =====================

   const ranked = CHUNKS.map((c) => ({ ...c, score: cosineSimilarity(qEmbed, c.embedding) }))
     .sort((a, b) => b.score - a.score)
     .slice(0, 5);

   `Array.prototype.sort` is required by the language to be stable, and for
   finite scores the comparator `(a, b) => b.score - a.score` is negative
   exactly when `a.score > b.score`: the sort is a stable sort by descending
   score.  It is modelled by insertion sort under the relation `scoreGE`
   (descending keys, an element inserted in front of equal keys so that the
   earlier-scanned element stays first), which is such a stable sort;
   `.slice(0, k)` is `List.take k`.  The score values themselves are a
   parameter (`key`), so every query vector's score assignment is covered. -/

def scoreGE {α β : Type} [LinearOrder β] (key : α → β) (a b : α) : Prop :=
  key b ≤ key a

instance {α β : Type} [LinearOrder β] (key : α → β) : DecidableRel (scoreGE key) :=
  fun a b => inferInstanceAs (Decidable (key b ≤ key a))

instance {α β : Type} [LinearOrder β] (key : α → β) : IsTotal α (scoreGE key) :=
  ⟨fun a b => le_total (key b) (key a)⟩

instance {α β : Type} [LinearOrder β] (key : α → β) : IsTrans α (scoreGE key) :=
  ⟨fun _ _ _ hab hbc => le_trans hbc hab⟩

/-- Stable sort by descending key: the model of `.sort((a, b) => b.score - a.score)`. -/
def sortByScoreDesc {α β : Type} [LinearOrder β] (key : α → β) (l : List α) : List α :=
  l.insertionSort (scoreGE key)

/-- The `.map` step: pair every stored chunk with its score, in scan order. -/
def scored {α β : Type} (score : α → β) (items : List α) : List (α × β) :=
  items.map (fun c => (c, score c))

/-- All stored chunks ranked by descending score (the array before `.slice`). -/
def rankAll {α β : Type} [LinearOrder β] (score : α → β) (items : List α) : List (α × β) :=
  sortByScoreDesc (fun p => p.2) (scored score items)

/-- The retrieval contract `rank(queryVector, chunks, k)`: the ranked array cut
to its first `k` entries (`.slice(0, k)`; the `/ask` route uses `k = 5`). -/
def rank {α β : Type} [LinearOrder β] (score : α → β) (items : List α) (k : Nat) :
    List (α × β) :=
  (rankAll score items).take k

theorem filter_orderedInsert_of_key_eq {α β : Type} [LinearOrder β] (key : α → β)
    (q : β) (x : α) (hq : key x = q) :
    ∀ l : List α,
      (l.orderedInsert (scoreGE key) x).filter (fun a => decide (key a = q))
        = x :: l.filter (fun a => decide (key a = q))
  | [] => by simp [List.orderedInsert, hq]
  | b :: l => by
    by_cases hb : scoreGE key x b
    · simp [List.orderedInsert, hb, hq]
    · have hbq : ¬ (key b = q) := by
        intro hc
        exact hb (by rw [scoreGE, hq, ← hc])
      simp only [List.orderedInsert, if_neg hb, List.filter_cons]
      rw [filter_orderedInsert_of_key_eq key q x hq l]
      simp [hbq]

theorem filter_orderedInsert_of_key_ne {α β : Type} [LinearOrder β] (key : α → β)
    (q : β) (x : α) (hq : ¬ (key x = q)) :
    ∀ l : List α,
      (l.orderedInsert (scoreGE key) x).filter (fun a => decide (key a = q))
        = l.filter (fun a => decide (key a = q))
  | [] => by simp [List.orderedInsert, hq]
  | b :: l => by
    by_cases hb : scoreGE key x b
    · simp [List.orderedInsert, hb, hq]
    · simp only [List.orderedInsert, if_neg hb, List.filter_cons]
      rw [filter_orderedInsert_of_key_ne key q x hq l]

/-- Stability of the modelled sort: restricted to any one score value `q`, the
sorted list keeps exactly the original scan order ("first-seen wins"). -/
theorem sortByScoreDesc_stable {α β : Type} [LinearOrder β] (key : α → β) (q : β) :
    ∀ l : List α,
      (sortByScoreDesc key l).filter (fun a => decide (key a = q))
        = l.filter (fun a => decide (key a = q))
  | [] => rfl
  | x :: l => by
    show ((List.insertionSort (scoreGE key) l).orderedInsert (scoreGE key) x).filter _
        = (x :: l).filter _
    have ih := sortByScoreDesc_stable key q l
    rw [sortByScoreDesc] at ih
    by_cases hx : key x = q
    · rw [filter_orderedInsert_of_key_eq key q x hx, ih]
      simp [hx]
    · rw [filter_orderedInsert_of_key_ne key q x hx, ih]
      simp [hx]

theorem rankAll_perm {α β : Type} [LinearOrder β] (score : α → β) (items : List α) :
    List.Perm (rankAll score items) (scored score items) :=
  List.perm_insertionSort _ _

theorem rankAll_sorted {α β : Type} [LinearOrder β] (score : α → β) (items : List α) :
    List.Sorted (scoreGE (fun p : α × β => p.2)) (rankAll score items) :=
  List.sorted_insertionSort _ _

theorem rankAll_length {α β : Type} [LinearOrder β] (score : α → β) (items : List α) :
    (rankAll score items).length = items.length := by
  rw [(rankAll_perm score items).length_eq]
  simp [scored]

/-- C2. For every store of chunks, score assignment (hence every query vector)
and `k`: the ranking returns `min k n` scored pairs, sorted by descending
score; together with the dropped part it is a permutation of the scored store,
and everything kept scores at least as high as everything dropped (so it is
exactly the top `k`); for `k ≥ n` it is the whole store sorted; and within any
single score value the output preserves the original scan order, so ties are
broken deterministically, first-seen wins. -/
theorem c2_rank_top_k {α β : Type} [LinearOrder β] (score : α → β) (items : List α)
    (k : Nat) :
    (rank score items k).length = min k items.length ∧
    List.Sorted (scoreGE (fun p : α × β => p.2)) (rank score items k) ∧
    List.Perm (rank score items k ++ (rankAll score items).drop k) (scored score items) ∧
    (∀ a ∈ rank score items k, ∀ b ∈ (rankAll score items).drop k, b.2 ≤ a.2) ∧
    (items.length ≤ k → rank score items k = rankAll score items) ∧
    (∀ q : β, (rankAll score items).filter (fun p => decide (p.2 = q))
        = (scored score items).filter (fun p => decide (p.2 = q))) := by
  refine ⟨?_, ?_, ?_, ?_, ?_, ?_⟩
  · rw [rank, List.length_take, rankAll_length]
  · exact (rankAll_sorted score items).sublist (List.take_sublist _ _)
  · rw [rank, List.take_append_drop]
    exact rankAll_perm score items
  · intro a ha b hb
    exact (rankAll_sorted score items).rel_of_mem_take_of_mem_drop ha hb
  · intro hk
    rw [rank, List.take_of_length_le]
    rw [rankAll_length]
    exact hk
  · intro q
    exact sortByScoreDesc_stable (fun p : α × β => p.2) q (scored score items)

/-- Witness for C2 on the store `[3, 1, 2] : List ℤ` scored by the identity
with `k = 2`: the returned ranking is the two highest scores in descending
order. -/
theorem c2_rank_top_k_witness :
    (rank (fun n : ℤ => n) [3, 1, 2] 2).length = min 2 ([3, 1, 2] : List ℤ).length ∧
    rank (fun n : ℤ => n) [3, 1, 2] 2 = [(3, 3), (2, 2)] := by
  refine ⟨(c2_rank_top_k (fun n : ℤ => n) [3, 1, 2] 2).1, ?_⟩
  decide

/- ==================== /ask route (src/server.js:204-246) =================

   if (!question) return 400 "No question provided";
   if (CHUNKS.length === 0) return 400 "No data indexed";
   const qEmbed = ...;                                -- collaborator call
   const ranked = CHUNKS.map(score).sort(desc).slice(0, 5);
   const context = ranked.map(c => c.text).join("\n\n");
   const answer = ...;                                -- collaborator call
   res.json({ answer, sources: ranked.map(r => r.id) });

   The question embedding and the completion call are external collaborators;
   the induced score function (c ↦ cosineSimilarity(qEmbed, c.embedding)) is
   a parameter of the model.  The handler's own output is the context chunk
   texts fed to the completion call plus the cited source ids. -/

/-- A stored chunk (the objects of the `CHUNKS` array and of `chunks.json`). -/
structure Chunk where
  id : String
  text : List Char
  embedding : List ℚ
deriving DecidableEq

def askHandler {β : Type} [LinearOrder β] (score : Chunk → β) (question : List Char)
    (chunks : List Chunk) : Except String (List (List Char) × List String) :=
  if question.isEmpty then Except.error "No question provided"
  else if chunks.isEmpty then Except.error "No data indexed"
  else
    Except.ok ((rank score chunks 5).map (fun p => p.1.text),
               (rank score chunks 5).map (fun p => p.1.id))

/-- C10. The `/ask` route fixes the top-K parameter at `K = 5`: for every
question asked against a non-empty store it ranks the whole store (the ranked
array is a permutation of all scored chunks) and returns exactly
`min 5 n` chunks, both as the context texts and as the cited source ids. -/
theorem c10_ask_top5 {β : Type} [LinearOrder β] (score : Chunk → β)
    (question : List Char) (chunks : List Chunk)
    (hq : question ≠ []) (hc : chunks ≠ []) :
    askHandler score question chunks
      = Except.ok ((rank score chunks 5).map (fun p => p.1.text),
                   (rank score chunks 5).map (fun p => p.1.id)) ∧
    ((rank score chunks 5).map (fun p => p.1.text)).length = min 5 chunks.length ∧
    ((rank score chunks 5).map (fun p => p.1.id)).length = min 5 chunks.length ∧
    List.Perm (rankAll score chunks) (scored score chunks) := by
  have hq' : question.isEmpty = false := by
    cases question with
    | nil => exact absurd rfl hq
    | cons a l => rfl
  have hc' : chunks.isEmpty = false := by
    cases chunks with
    | nil => exact absurd rfl hc
    | cons a l => rfl
  refine ⟨by rw [askHandler, hq', hc']; rfl, ?_, ?_, rankAll_perm score chunks⟩
  · rw [List.length_map, rank, List.length_take, rankAll_length]
  · rw [List.length_map, rank, List.length_take, rankAll_length]

def demoChunkA : Chunk := ⟨"A_0_0", ['x'], [1]⟩

def demoChunkB : Chunk := ⟨"B_0_0", ['y'], [0]⟩

def demoScore (c : Chunk) : ℚ := c.embedding.headD 0

/-- Witness for C10 on a two-chunk store: both chunks are returned (min 5 2 = 2),
highest score first, with their ids cited. -/
theorem c10_ask_top5_witness :
    (['q'] : List Char) ≠ [] ∧ ([demoChunkA, demoChunkB] : List Chunk) ≠ [] ∧
    askHandler demoScore ['q'] [demoChunkA, demoChunkB]
      = Except.ok ([['x'], ['y']], ["A_0_0", "B_0_0"]) := by
  refine ⟨by decide, by decide, ?_⟩
  rw [(c10_ask_top5 demoScore ['q'] [demoChunkA, demoChunkB] (by decide) (by decide)).1]
  have h : rank demoScore [demoChunkA, demoChunkB] 5
      = [(demoChunkA, 1), (demoChunkB, 0)] := by decide
  rw [h]
  rfl

/-- C7 (code bug). The claim asks that `chunkText` reject or clamp the case
`overlap ≥ chunkSize`; the code does neither: the loop stride
`chunkSize - overlap` is then `≤ 0` (0 in this Nat model), the loop index
never advances past a non-empty text, and the loop runs forever — the
fuelled model returns `none` for every amount of fuel, at entry `chunkText`'s
fuel in particular. -/
theorem c7_chunker_overlap_ge_size_diverges (text : List Char) (chunkSize overlap : Nat)
    (hso : chunkSize ≤ overlap) (ht : text ≠ []) :
    chunkText text chunkSize overlap = none ∧
    ∀ fuel, chunkTextLoop text chunkSize overlap fuel 0 = none := by
  have hs0 : chunkSize - overlap = 0 := by omega
  have hlen : 0 < text.length := List.length_pos.mpr ht
  have hloop : ∀ fuel, chunkTextLoop text chunkSize overlap fuel 0 = none := by
    intro fuel
    induction fuel with
    | zero => exact chunkTextLoop_out text chunkSize overlap 0 hlen
    | succ fuel ih =>
      apply chunkTextLoop_step_none text chunkSize overlap fuel 0 hlen
      rw [hs0]
      exact ih
  exact ⟨hloop _, hloop⟩

/-- Witness for C7 at `text = "ab"`, `chunkSize = overlap = 2` (and fuel 5 for
the universally quantified part). -/
theorem c7_chunker_overlap_ge_size_diverges_witness :
    2 ≤ 2 ∧ "ab".data ≠ [] ∧ chunkText "ab".data 2 2 = none ∧
      chunkTextLoop "ab".data 2 2 5 0 = none := by
  have h := c7_chunker_overlap_ge_size_diverges "ab".data 2 2 (by decide) (by decide)
  exact ⟨by decide, by decide, h.1, h.2 5⟩

/- ============ Embedding Client Adapter (src/server.js:54-70) ==============

   async function embedTextsBatch(texts, batchSize = 50) {
     const embeddings = [];
     for (let i = 0; i < texts.length; i += batchSize) {
       const batch = texts.slice(i, i + batchSize);
       const res = await Promise.all(batch.map((text) => openai.embeddings.create(...)));
       embeddings.push(...res.map((r) => r.data[0].embedding));
       await new Promise((r) => setTimeout(r, 50));
     }
     return embeddings;
   }

   The provider is a collaborator, modelled as a parameter
   `embedOne : List Char → Option (List ℚ)` (`none` = the request rejects).
   `Promise.all` resolves with the batch's embeddings in order iff every
   request in the batch resolves, and rejects otherwise; a rejection
   propagates out of `embedTextsBatch` (no retry, no partial result).  The
   fixed pause between sub-batches has no observable effect here.  The
   batched loop is modelled with the head sub-batch `t :: ts.take (b-1)`
   (which equals `texts.slice(0, b)`) followed by the loop's remaining
   iterations on `ts.drop (b-1)` (= `texts` from index `b` on); this is the
   JS loop for any `batchSize ≥ 1`, and every call site passes 50. -/

def mapOption {α γ : Type} (f : α → Option γ) : List α → Option (List γ)
  | [] => some []
  | x :: xs =>
    match f x, mapOption f xs with
    | some y, some ys => some (y :: ys)
    | _, _ => none

def embedTextsBatch (embedOne : List Char → Option (List ℚ)) (batchSize : Nat) :
    List (List Char) → Option (List (List ℚ))
  | [] => some []
  | t :: ts =>
    (mapOption embedOne (t :: ts.take (batchSize - 1))).bind (fun batch =>
      (embedTextsBatch embedOne batchSize (ts.drop (batchSize - 1))).map
        (fun rest => batch ++ rest))
termination_by texts => texts.length
decreasing_by simp [List.length_drop]; omega

theorem mapOption_eq_none {α γ : Type} (f : α → Option γ) :
    ∀ (xs : List α) (x : α), x ∈ xs → f x = none → mapOption f xs = none
  | [], x, hx, _ => absurd hx (List.not_mem_nil x)
  | y :: ys, x, hx, hf => by
    rcases List.mem_cons.mp hx with rfl | hys
    · rw [mapOption, hf]
    · rw [mapOption, mapOption_eq_none f ys x hys hf]
      rcases f y with _ | v <;> rfl

/-- If any single embedding request in any sub-batch rejects, the whole
`embedTextsBatch` call rejects. -/
theorem embedTextsBatch_eq_none (embedOne : List Char → Option (List ℚ)) (batchSize : Nat) :
    ∀ (texts : List (List Char)) (t : List Char), t ∈ texts → embedOne t = none →
      embedTextsBatch embedOne batchSize texts = none
  | [], t, ht, _ => absurd ht (List.not_mem_nil t)
  | t0 :: ts, t, ht, he => by
    rw [embedTextsBatch]
    rcases List.mem_cons.mp ht with rfl | hts
    · rw [mapOption_eq_none embedOne _ t (List.mem_cons_self t _) he]
      rfl
    · have hsplit : t ∈ ts.take (batchSize - 1) ∨ t ∈ ts.drop (batchSize - 1) := by
        rw [← List.mem_append, List.take_append_drop]
        exact hts
      rcases hsplit with htk | htd
    
      · rw [mapOption_eq_none embedOne _ t (List.mem_cons_of_mem t0 htk) he]
        rfl
      · rw [embedTextsBatch_eq_none embedOne batchSize (ts.drop (batchSize - 1)) t htd he]
        rcases mapOption embedOne (t0 :: ts.take (batchSize - 1)) with _ | b <;> rfl
termination_by texts => texts.length
decreasing_by simp [List.length_drop]; omega

/- ============= Ingestion Orchestrator (src/server.js:72-87) ===============

   async function processText(text, source = "file") {
     const chunks = chunkText(text);                      // defaults 1500, 300
     const embeddings = await embedTextsBatch(chunks, 50);
     const processed = chunks.map((chunk, i) => ({
       id: `${source}_${Date.now()}_${i}`,
       text: chunk,
       embedding: embeddings[i],
     }));
     CHUNKS.push(...processed);
     saveChunks();
     return processed.length;
   }

   State is the global `CHUNKS` array together with the persisted snapshot
   `chunks.json` (`saveChunks` rewrites it from the whole array).  A rejected
   embedding call throws before `CHUNKS.push` and `saveChunks` run, so a
   failing call returns with the state it was given.  `Date.now()` is the
   `now` parameter. -/

structure Store where
  chunks : List Chunk
  persisted : List Chunk
deriving DecidableEq

def mkChunkId (source : String) (now i : Nat) : String :=
  source ++ "_" ++ toString now ++ "_" ++ toString i

def processText (embedOne : List Char → Option (List ℚ)) (now : Nat)
    (text : List Char) (source : String) (st : Store) : Option Nat × Store :=
  match chunkText text 1500 300 with
  | none => (none, st)
  | some cs =>
    match embedTextsBatch embedOne 50 cs with
    | none => (none, st)
    | some embs =>
      let processed := cs.enum.map (fun p =>
        Chunk.mk (mkChunkId source now p.1) p.2 (embs.getD p.1 []))
      (some processed.length,
       Store.mk (st.chunks ++ processed) (st.chunks ++ processed))

/-- The default chunking (1500/300, stride 1200) always terminates, so the
first branch of `processText` is never the `none` one. -/
theorem chunkText_default_isSome (text : List Char) :
    chunkText text 1500 300 =
      some ((List.range (numChunks text.length 1200)).map
        (fun k => (text.drop (k * 1200)).take 1500)) := by
  have h := chunkText_eq text 1500 300 (by omega)
  simpa using h

/-- C3. If the embedding step of an ingestion fails — some request for some
chunk of the text rejects — then `processText` fails as a whole and returns
the store exactly as it was: nothing is appended to the in-memory `CHUNKS`
and the persisted snapshot is untouched. -/
theorem c3_ingest_unchanged_on_embed_failure (embedOne : List Char → Option (List ℚ))
    (now : Nat) (text : List Char) (source : String) (st : Store)
    (cs : List (List Char)) (hcs : chunkText text 1500 300 = some cs)
    (t : List Char) (ht : t ∈ cs) (he : embedOne t = none) :
    processText embedOne now text source st = (none, st) := by
  simp only [processText, hcs, embedTextsBatch_eq_none embedOne 50 cs t ht he]

/-- Witness for C3: a one-character text (one chunk) with an embedding
provider that rejects every request leaves a store unchanged. -/
theorem c3_ingest_unchanged_on_embed_failure_witness :
    chunkText ['a'] 1500 300 = some [['a']] ∧
    processText (fun _ => none) 7 ['a'] "file" (Store.mk [] [])
      = (none, Store.mk [] []) := by
  refine ⟨by decide, ?_⟩
  exact c3_ingest_unchanged_on_embed_failure (fun _ => none) 7 ['a'] "file"
    (Store.mk [] []) [['a']] (by decide) ['a'] (by decide) rfl

/- ============== /upload-file route (src/server.js:90-124) ================

   (text extraction from the uploaded file is a collaborator; `text` below is
   the extracted text, `source` the uppercased extension)

   if (!text.trim()) return res.status(400).json({ error: "No text extracted" });
   const chunksCount = await processText(text, ext.toUpperCase());
   res.json({ message: "File indexed", chunks: chunksCount, type: ext });
   ...catch: res.status(500).json({ error: err.message || "File processing error" });

   `!text.trim()` is truthy exactly when the trimmed string is empty.
   `String.prototype.trim` strips leading and trailing whitespace; the
   whitespace class is modelled by the common ASCII whitespace characters
   (the JS class also has Unicode spaces, which changes nothing below: the
   claims quantify over texts whose trimmed form is empty). -/

def jsWhitespace (c : Char) : Bool :=
  c == ' ' || c == '\t' || c == '\n' || c == '\r' || c == '\x0b' || c == '\x0c'

def jsTrim (s : List Char) : List Char :=
  ((s.dropWhile jsWhitespace).reverse.dropWhile jsWhitespace).reverse

def uploadFileIngest (embedOne : List Char → Option (List ℚ)) (now : Nat)
    (text : List Char) (source : String) (st : Store) : Except String Nat × Store :=
  if (jsTrim text).isEmpty then (Except.error "No text extracted", st)
  else
    match processText embedOne now text source st with
    | (some n, st') => (Except.ok n, st')
    | (none, st') => (Except.error "File processing error", st')

/-- C8. A text that is empty after trimming whitespace is rejected by the
ingestion route with the validation error, before any chunk is created: the
handler returns the store unchanged (nothing appended in memory, persisted
snapshot untouched) and no chunk count. -/
theorem c8_empty_text_rejected (embedOne : List Char → Option (List ℚ)) (now : Nat)
    (text : List Char) (source : String) (st : Store) (h : jsTrim text = []) :
    uploadFileIngest embedOne now text source st
      = (Except.error "No text extracted", st) := by
  rw [uploadFileIngest, h]
  rfl

/-- Witness for C8 on the whitespace-only text `" \n "`. -/
theorem c8_empty_text_rejected_witness :
    jsTrim [' ', '\n', ' '] = [] ∧
    uploadFileIngest (fun _ => some []) 7 [' ', '\n', ' '] "TXT"
        (Store.mk [demoChunkA] [demoChunkA])
      = (Except.error "No text extracted", Store.mk [demoChunkA] [demoChunkA]) :=
  ⟨by decide, c8_empty_text_rejected (fun _ => some []) 7 [' ', '\n', ' '] "TXT"
    (Store.mk [demoChunkA] [demoChunkA]) (by decide)⟩

/- ============== cosineSimilarity (src/server.js:37-42) ====================

   function cosineSimilarity(a, b) {
     const dot = a.reduce((sum, val, i) => sum + val * b[i], 0);
     const magA = Math.sqrt(a.reduce((sum, val) => sum + val * val, 0));
     const magB = Math.sqrt(b.reduce((sum, val) => sum + val * val, 0));
     return dot / (magA * magB);
   }

   Finite float vector entries are rational values; `Math.sqrt` and the final
   quotient are taken in ℝ.  The first reduce is the dot product of `a` and
   `b` truncated at the shorter length (the callers use equal dimensions).
   ℝ has no NaN, and Lean's convention `x / 0 = 0` silently returns 0 where
   IEEE division returns NaN, so whether the source expression is the NaN
   case `0 / 0` is recorded by the denominator `mag a * mag b` (and the
   numerator) rather than by the quotient's value. -/

def dotQ (a b : List ℚ) : ℚ := (List.zipWith (fun x y => x * y) a b).sum

def sumSq (a : List ℚ) : ℚ := (a.map (fun x => x * x)).sum

noncomputable def mag (a : List ℚ) : ℝ := Real.sqrt ((sumSq a : ℚ) : ℝ)

noncomputable def cosineSimilarity (a b : List ℚ) : ℝ :=
  ((dotQ a b : ℚ) : ℝ) / (mag a * mag b)

theorem sumSq_nonneg (a : List ℚ) : 0 ≤ sumSq a := by
  apply List.sum_nonneg
  intro x hx
  obtain ⟨y, _, rfl⟩ := List.mem_map.mp hx
  exact mul_self_nonneg y

theorem sumSq_eq_zero (a : List ℚ) (h : ∀ x ∈ a, x = 0) : sumSq a = 0 := by
  induction a with
  | nil => rfl
  | cons y l ih =>
    have hy : y = 0 := h y (List.mem_cons_self y l)
    have hl : sumSq l = 0 := ih (fun x hx => h x (List.mem_cons_of_mem y hx))
    simp [sumSq, List.map_cons, List.sum_cons, hy]
    simpa [sumSq] using hl

theorem sumSq_pos (a : List ℚ) (h : ∃ x ∈ a, x ≠ 0) : 0 < sumSq a := by
  induction a with
  | nil => obtain ⟨x, hx, _⟩ := h; exact absurd hx (List.not_mem_nil x)
  | cons y l ih =>
    rw [sumSq, List.map_cons, List.sum_cons]
    obtain ⟨x, hx, hxne⟩ := h
    rcases List.mem_cons.mp hx with rfl | hxl
    · have : 0 < x * x := mul_self_pos.mpr hxne
      have := sumSq_nonneg l
      rw [sumSq] at this
      linarith
    · have : 0 < sumSq l := ih ⟨x, hxl, hxne⟩
      rw [sumSq] at this
      have := mul_self_nonneg y
      linarith

theorem dotQ_self (a : List ℚ) : dotQ a a = sumSq a := by
  induction a with
  | nil => rfl
  | cons y l ih =>
    rw [dotQ, sumSq] at ih ⊢
    simp only [List.zipWith_cons_cons, List.map_cons, List.sum_cons, ih]

theorem dotQ_zero_left (a b : List ℚ) (h : ∀ x ∈ a, x = 0) : dotQ a b = 0 := by
  induction a generalizing b with
  | nil => rfl
  | cons y l ih =>
    cases b with
    | nil => rfl
    | cons z m =>
      rw [dotQ, List.zipWith_cons_cons, List.sum_cons]
      have hy : y = 0 := h y (List.mem_cons_self y l)
      have hl := ih m (fun x hx => h x (List.mem_cons_of_mem y hx))
      rw [dotQ] at hl
      rw [hy, hl]
      ring

theorem dotQ_zero_right (a b : List ℚ) (h : ∀ x ∈ b, x = 0) : dotQ a b = 0 := by
  induction a generalizing b with
  | nil => rfl
  | cons y l ih =>
    cases b with
    | nil => rfl
    | cons z m =>
      rw [dotQ, List.zipWith_cons_cons, List.sum_cons]
      have hz : z = 0 := h z (List.mem_cons_self z m)
      have hl := ih m (fun x hx => h x (List.mem_cons_of_mem z hx))
      rw [dotQ] at hl
      rw [hz, hl]
      ring

/-- Cauchy-Schwarz for the truncating list dot product (the extra entries of
the longer list only enlarge the right-hand side). -/
theorem cs_ineq_step (x y d A B : ℚ) (hA : 0 ≤ A) (hB : 0 ≤ B) (hd : d ^ 2 ≤ A * B) :
    (x * y + d) ^ 2 ≤ (x * x + A) * (y * y + B) := by
  have hd' : 0 ≤ A * B - d ^ 2 := by linarith
  rcases eq_or_lt_of_le hB with hB0 | hBpos
  · have hd0 : d = 0 := by nlinarith [sq_nonneg d]
    rw [hd0, ← hB0]
    nlinarith [mul_nonneg hA (sq_nonneg y), sq_nonneg (x * y)]
  · nlinarith [sq_nonneg (x * B - y * d), mul_nonneg hd' (le_of_lt hBpos),
      mul_nonneg hd' (sq_nonneg y)]

theorem dotQ_sq_le (a : List ℚ) : ∀ b : List ℚ, (dotQ a b) ^ 2 ≤ sumSq a * sumSq b := by
  induction a with
  | nil =>
    intro b
    have hb := sumSq_nonneg b
    simp [dotQ, sumSq]
  | cons x l ih =>
    intro b
    cases b with
    | nil =>
      have ha := sumSq_nonneg (x :: l)
      simp [dotQ, sumSq]
    | cons y m =>
      have hA := sumSq_nonneg l
      have hB := sumSq_nonneg m
      have hd := ih m
      rw [dotQ, List.zipWith_cons_cons, List.sum_cons] at *
      rw [sumSq, List.map_cons, List.sum_cons, sumSq, List.map_cons, List.sum_cons]
      rw [sumSq] at hA hd
      rw [sumSq] at hB hd
      exact cs_ineq_step x y _ _ _ hA hB hd

/-- C6 (code bug). The claim requires that with an all-zero input vector the
similarity be defined as score 0 or be rejected with an error.  The code has
no error path, and for an all-zero vector its return expression is literally
`0 / 0`: both the numerator `dot` and the denominator `magA * magB` are 0.
In JS IEEE arithmetic `0 / 0` is NaN, the `.map` on the `/ask` route stores
that NaN as the chunk's score, and the sort comparator receives it: the NaN
propagates into ranking.  (`cosineSimilarity a b` itself evaluates to 0 here
only by ℝ's `x / 0 = 0` convention, which is why the `0 / 0` shape is what
is stated.) -/
theorem c6_zero_vector_gives_nan (a b : List ℚ)
    (h : (∀ x ∈ a, x = 0) ∨ (∀ x ∈ b, x = 0)) :
    dotQ a b = 0 ∧ mag a * mag b = 0 := by
  rcases h with ha | hb
  · refine ⟨dotQ_zero_left a b ha, ?_⟩
    have h0 : mag a = 0 := by
      rw [mag, sumSq_eq_zero a ha]
      simp [Real.sqrt_zero]
    rw [h0, zero_mul]
  · refine ⟨dotQ_zero_right a b hb, ?_⟩
    have h0 : mag b = 0 := by
      rw [mag, sumSq_eq_zero b hb]
      simp [Real.sqrt_zero]
    rw [h0, mul_zero]

/-- Witness for C6 at `a = [0]`, `b = [1]`: the source expression is `0 / 0`. -/
theorem c6_zero_vector_gives_nan_witness :
    (∀ x ∈ ([0] : List ℚ), x = 0) ∧ dotQ [0] [1] = 0 ∧ mag [0] * mag [1] = 0 :=
  ⟨by decide, c6_zero_vector_gives_nan [0] [1] (Or.inl (by decide))⟩

/-- C9. With exact real arithmetic (the model of the float computation): for
any two non-zero vectors of equal dimension the cosine similarity lies in
`[-1, 1]`, and for any non-zero vector `v` the similarity of `v` with itself
is exactly 1. -/
theorem c9_cosine_bounds (a b : List ℚ) (hlen : a.length = b.length)
    (ha : ∃ x ∈ a, x ≠ 0) (hb : ∃ x ∈ b, x ≠ 0) :
    (-1 ≤ cosineSimilarity a b ∧ cosineSimilarity a b ≤ 1) ∧
    cosineSimilarity a a = 1 := by
  have hA : 0 < sumSq a := sumSq_pos a ha
  have hB : 0 < sumSq b := sumSq_pos b hb
  have hAr : (0 : ℝ) < ((sumSq a : ℚ) : ℝ) := by exact_mod_cast hA
  have hBr : (0 : ℝ) < ((sumSq b : ℚ) : ℝ) := by exact_mod_cast hB
  have hmagA : 0 < mag a := Real.sqrt_pos.mpr hAr
  have hmagB : 0 < mag b := Real.sqrt_pos.mpr hBr
  have hD : 0 < mag a * mag b := mul_pos hmagA hmagB
  have hcs : ((dotQ a b : ℚ) : ℝ) ^ 2 ≤ ((sumSq a : ℚ) : ℝ) * ((sumSq b : ℚ) : ℝ) := by
    exact_mod_cast dotQ_sq_le a b
  have hprod : mag a * mag b = Real.sqrt (((sumSq a : ℚ) : ℝ) * ((sumSq b : ℚ) : ℝ)) := by
    rw [mag, mag, Real.sqrt_mul hAr.le]
  have habs : |((dotQ a b : ℚ) : ℝ)| ≤ mag a * mag b := by
    rw [hprod]
    exact Real.abs_le_sqrt hcs
  refine ⟨⟨?_, ?_⟩, ?_⟩
  · rw [cosineSimilarity, le_div_iff hD, neg_one_mul]
    have := (abs_le.mp habs).1
    linarith
  · rw [cosineSimilarity, div_le_one hD]
    exact le_of_abs_le habs
  · rw [cosineSimilarity, dotQ_self, mag, Real.mul_self_sqrt hAr.le]
    exact div_self (ne_of_gt hAr)

/-- Witness for C9 at `a = [1]`, `b = [2]`. -/
theorem c9_cosine_bounds_witness :
    ([1] : List ℚ).length = ([2] : List ℚ).length ∧
    (∃ x ∈ ([1] : List ℚ), x ≠ 0) ∧ (∃ x ∈ ([2] : List ℚ), x ≠ 0) ∧
    ((-1 ≤ cosineSimilarity [1] [2] ∧ cosineSimilarity [1] [2] ≤ 1) ∧
      cosineSimilarity [1] [1] = 1) :=
  ⟨rfl, by decide, by decide, c9_cosine_bounds [1] [2] rfl (by decide) (by decide)⟩

/- ==================== Crawler (src/server.js:147-180) =====================

   async function crawlWebsite(baseUrl, visited = new Set(), maxPages = 100) {
     const pages = [];
     async function crawl(url) {
       if (visited.has(url) || pages.length >= maxPages) return;
       visited.add(url);
       try {
         const { data } = await axios.get(url);
         ... title / h1-h3 / body extraction ...
         if (text) pages.push({ url, text });
         $("a[href]").each((i, el) => {
           let link = $(el).attr("href");
           if (!link) return;
           const resolved = urlModule.resolve(baseUrl, link.split("#")[0]);
           if (resolved.startsWith(baseUrl)) crawl(resolved);
         });
       } catch (err) { console.error("Failed to fetch:", url, err.message); }
     }
     await crawl(baseUrl);
     return pages;
   }

   Modelling notes.
   * The network fetch and the cheerio extraction are collaborators: `site u`
     is the fetch of URL `u`; `none` is a failed fetch (that branch of the
     traversal is abandoned), `some pd` gives the extracted page text (the
     title/headings/body concatenation) and the page's href values in
     document order.
   * `urlModule.resolve` is Node's URL resolver, a collaborator modelled as
     the parameter `resolveUrl`.  Note the code resolves every link against
     `baseUrl`, not against the URL of the page the link was found on.
   * The recursive `crawl(resolved)` calls inside the `.each` callback are
     not awaited.  Such a call runs synchronously through its entry check
     (`visited.has(url) || pages.length >= maxPages`) and `visited.add`, up
     to its `await axios.get`, and the remainder — the page push and the
     spawning of that page's links — runs when the fetch resolves.  The
     state machine below makes that explicit: `queue` holds URLs whose
     fetches are in flight (past the entry check, already in `visited`);
     `crawlStep` completes the head fetch; completions are processed in
     initiation order, one faithful schedule of the event loop.  `fetched`
     is the log of initiated fetches. -/

/-- s.startsWith(p) on JS strings: the second argument is a prefix of the first. -/
def strStartsWith : List Char → List Char → Bool
  | _, [] => true
  | [], _ :: _ => false
  | c :: s, d :: p => c == d && strStartsWith s p

theorem strStartsWith_refl : ∀ s : List Char, strStartsWith s s = true
  | [] => rfl
  | c :: s => by
    rw [strStartsWith, strStartsWith_refl s]
    simp

/-- link.split("#")[0]: everything before the first '#'. -/
def stripFragment (l : List Char) : List Char := l.takeWhile (fun c => c != '#')

/-- A fetched page as the crawler sees it: extracted text and href values. -/
structure PageData where
  text : List Char
  links : List (List Char)

/-- The URLs the `.each` loop passes to `crawl` from one page: every
non-empty href, fragment-stripped, resolved against `baseUrl`, kept iff the
resolved string starts with the literal `baseUrl`. -/
def linkTargets (resolveUrl : List Char → List Char → List Char) (base : List Char)
    (links : List (List Char)) : List (List Char) :=
  ((links.filter (fun l => !l.isEmpty)).map
    (fun l => resolveUrl base (stripFragment l))).filter
      (fun r => strStartsWith r base)

structure CrawlState where
  visited : List (List Char)
  pages : List (List Char × List Char)
  queue : List (List Char)
  fetched : List (List Char)

/-- Entry of `crawl(r)`: the synchronous prefix of the call.  If `r` was
already visited or `maxPages` page records have accumulated, nothing happens;
otherwise `r` is marked visited and its fetch goes in flight. -/
def spawn (maxPages : Nat) (st : CrawlState) (r : List Char) : CrawlState :=
  if decide (r ∈ st.visited) || decide (maxPages ≤ st.pages.length) then st
  else CrawlState.mk (r :: st.visited) st.pages (st.queue ++ [r]) st.fetched

def spawnAll (maxPages : Nat) (st : CrawlState) (targets : List (List Char)) : CrawlState :=
  targets.foldl (spawn maxPages) st

/-- Completion of the oldest in-flight fetch: on failure the branch is
abandoned; on success the page record is pushed when the text is non-empty,
and the page's link targets are spawned. -/
def crawlStep (resolveUrl : List Char → List Char → List Char)
    (site : List Char → Option PageData) (base : List Char) (maxPages : Nat)
    (st : CrawlState) : CrawlState :=
  match st.queue with
  | [] => st
  | u :: rest =>
    let st1 := CrawlState.mk st.visited st.pages rest (st.fetched ++ [u])
    match site u with
    | none => st1
    | some pd =>
      let st2 := if pd.text.isEmpty then st1
        else CrawlState.mk st1.visited (st1.pages ++ [(u, pd.text)]) st1.queue st1.fetched
      spawnAll maxPages st2 (linkTargets resolveUrl base pd.links)

/-- The initial `crawl(baseUrl)` call, spawned on the empty state. -/
def crawlInit (maxPages : Nat) (base : List Char) : CrawlState :=
  spawn maxPages (CrawlState.mk [] [] [] []) base

def crawlRun (resolveUrl : List Char → List Char → List Char)
    (site : List Char → Option PageData) (base : List Char) (maxPages : Nat) :
    Nat → CrawlState → CrawlState
  | 0, st => st
  | fuel + 1, st =>
    crawlRun resolveUrl site base maxPages fuel (crawlStep resolveUrl site base maxPages st)

/-- `crawlWebsite(baseUrl, new Set(), maxPages)`, run for `fuel` fetch
completions (once the queue is empty further steps change nothing). -/
def crawlWebsite (resolveUrl : List Char → List Char → List Char)
    (site : List Char → Option PageData) (base : List Char) (maxPages fuel : Nat) :
    CrawlState :=
  crawlRun resolveUrl site base maxPages fuel (crawlInit maxPages base)

/-- The crawl invariant: no URL is fetched or in flight twice, every fetched
or in-flight URL is marked visited and passes the scope test, and at most one
page record exists per initiated fetch. -/
def CrawlInv (base : List Char) (st : CrawlState) : Prop :=
  (st.queue ++ st.fetched).Nodup ∧
  (∀ u ∈ st.queue ++ st.fetched, u ∈ st.visited) ∧
  (∀ u ∈ st.queue ++ st.fetched, strStartsWith u base = true) ∧
  st.pages.length ≤ st.fetched.length

theorem linkTargets_scope (resolveUrl : List Char → List Char → List Char)
    (base : List Char) (links : List (List Char)) :
    ∀ r ∈ linkTargets resolveUrl base links, strStartsWith r base = true := by
  intro r hr
  rw [linkTargets] at hr
  exact (List.mem_filter.mp hr).2

theorem spawn_inv (maxPages : Nat) (base : List Char) (st : CrawlState) (r : List Char)
    (hr : strStartsWith r base = true) (h : CrawlInv base st) :
    CrawlInv base (spawn maxPages st r) := by
  obtain ⟨h1, h2, h3, h4⟩ := h
  rw [spawn]
  by_cases hg : decide (r ∈ st.visited) || decide (maxPages ≤ st.pages.length)
  · rw [if_pos hg]
    exact ⟨h1, h2, h3, h4⟩
  · rw [if_neg hg]
    simp only [Bool.or_eq_true, decide_eq_true_eq, not_or] at hg
    obtain ⟨hnv, _⟩ := hg
    have hrq : r ∉ st.queue ++ st.fetched := fun hc => hnv (h2 r hc)
    refine ⟨?_, ?_, ?_, h4⟩
    · rw [List.append_assoc, List.singleton_append, List.nodup_middle]
      exact List.nodup_cons.mpr ⟨hrq, h1⟩
    · intro u hu
      rw [List.append_assoc, List.singleton_append] at hu
      rcases List.mem_append.mp hu with huq | hur
      · exact List.mem_cons_of_mem r (h2 u (List.mem_append_left _ huq))
      · rcases List.mem_cons.mp hur with rfl | huf
        · exact List.mem_cons_self u _
        · exact List.mem_cons_of_mem r (h2 u (List.mem_append_right _ huf))
    · intro u hu
      rw [List.append_assoc, List.singleton_append] at hu
      rcases List.mem_append.mp hu with huq | hur
      · exact h3 u (List.mem_append_left _ huq)
      · rcases List.mem_cons.mp hur with rfl | huf
        · exact hr
        · exact h3 u (List.mem_append_right _ huf)

theorem spawnAll_inv (maxPages : Nat) (base : List Char) :
    ∀ (targets : List (List Char)) (st : CrawlState),
      (∀ r ∈ targets, strStartsWith r base = true) → CrawlInv base st →
      CrawlInv base (spawnAll maxPages st targets)
  | [], st, _, h => h
  | r :: ts, st, hscope, h => by
    rw [spawnAll, List.foldl_cons]
    exact spawnAll_inv maxPages base ts (spawn maxPages st r)
      (fun x hx => hscope x (List.mem_cons_of_mem r hx))
      (spawn_inv maxPages base st r (hscope r (List.mem_cons_self r ts)) h)

theorem crawlStep_queue_nil (resolveUrl : List Char → List Char → List Char)
    (site : List Char → Option PageData) (base : List Char) (maxPages : Nat)
    (st : CrawlState) (hq : st.queue = []) :
    crawlStep resolveUrl site base maxPages st = st := by
  rw [crawlStep, hq]

theorem crawlStep_fetch_fail (resolveUrl : List Char → List Char → List Char)
    (site : List Char → Option PageData) (base : List Char) (maxPages : Nat)
    (st : CrawlState) (u : List Char) (rest : List (List Char))
    (hq : st.queue = u :: rest) (hs : site u = none) :
    crawlStep resolveUrl site base maxPages st
      = CrawlState.mk st.visited st.pages rest (st.fetched ++ [u]) := by
  rw [crawlStep, hq]
  dsimp only
  rw [hs]

theorem crawlStep_fetch_ok (resolveUrl : List Char → List Char → List Char)
    (site : List Char → Option PageData) (base : List Char) (maxPages : Nat)
    (st : CrawlState) (u : List Char) (rest : List (List Char)) (pd : PageData)
    (hq : st.queue = u :: rest) (hs : site u = some pd) :
    crawlStep resolveUrl site base maxPages st
      = spawnAll maxPages
          (if pd.text.isEmpty then CrawlState.mk st.visited st.pages rest (st.fetched ++ [u])
           else CrawlState.mk st.visited (st.pages ++ [(u, pd.text)]) rest (st.fetched ++ [u]))
          (linkTargets resolveUrl base pd.links) := by
  rw [crawlStep, hq]
  dsimp only
  rw [hs]

theorem crawlStep_inv (resolveUrl : List Char → List Char → List Char)
    (site : List Char → Option PageData) (base : List Char) (maxPages : Nat)
    (st : CrawlState) (h : CrawlInv base st) :
    CrawlInv base (crawlStep resolveUrl site base maxPages st) := by
  obtain ⟨h1, h2, h3, h4⟩ := h
  cases hq : st.queue with
  | nil =>
    rw [crawlStep_queue_nil resolveUrl site base maxPages st hq]
    exact ⟨h1, h2, h3, h4⟩
  | cons u rest =>
    rw [hq] at h1 h2 h3
    have hperm : List.Perm ((rest ++ st.fetched) ++ [u]) (u :: (rest ++ st.fetched)) :=
      List.perm_append_singleton u (rest ++ st.fetched)
    have hmem : ∀ x, x ∈ rest ++ (st.fetched ++ [u]) ↔ x ∈ (u :: rest) ++ st.fetched := by
      intro x
      simp only [List.mem_append, List.mem_cons, List.cons_append, List.mem_singleton]
      tauto
    have h1' : (rest ++ (st.fetched ++ [u])).Nodup := by
      rw [← List.append_assoc]
      exact hperm.nodup_iff.mpr (by simpa using h1)
    have h2' : ∀ x ∈ rest ++ (st.fetched ++ [u]), x ∈ st.visited := by
      intro x hx
      exact h2 x ((hmem x).mp hx)
    have h3' : ∀ x ∈ rest ++ (st.fetched ++ [u]), strStartsWith x base = true := by
      intro x hx
      exact h3 x ((hmem x).mp hx)
    have h4' : st.pages.length ≤ (st.fetched ++ [u]).length := by
      rw [List.length_append]
      simp only [List.length_singleton]
      omega
    cases hsite : site u with
    | none =>
      rw [crawlStep_fetch_fail resolveUrl site base maxPages st u rest hq hsite]
      exact ⟨h1', h2', h3', h4'⟩
    | some pd =>
      rw [crawlStep_fetch_ok resolveUrl site base maxPages st u rest pd hq hsite]
      have hscope := linkTargets_scope resolveUrl base pd.links
      by_cases htext : pd.text.isEmpty
      · rw [if_pos htext]
        exact spawnAll_inv maxPages base _ _ hscope ⟨h1', h2', h3', h4'⟩
      · rw [if_neg htext]
        refine spawnAll_inv maxPages base _ _ hscope ⟨h1', h2', h3', ?_⟩
        simp only [List.length_append, List.length_singleton]
        omega

theorem crawlRun_inv (resolveUrl : List Char → List Char → List Char)
    (site : List Char → Option PageData) (base : List Char) (maxPages : Nat) :
    ∀ (fuel : Nat) (st : CrawlState), CrawlInv base st →
      CrawlInv base (crawlRun resolveUrl site base maxPages fuel st)
  | 0, _, h => h
  | fuel + 1, st, h =>
    crawlRun_inv resolveUrl site base maxPages fuel _
      (crawlStep_inv resolveUrl site base maxPages st h)

theorem crawlInit_inv (maxPages : Nat) (base : List Char) :
    CrawlInv base (crawlInit maxPages base) := by
  apply spawn_inv maxPages base _ base (strStartsWith_refl base)
  refine ⟨List.nodup_nil, ?_, ?_, Nat.le_refl 0⟩
  · intro u hu
    exact absurd hu (List.not_mem_nil u)
  · intro u hu
    exact absurd hu (List.not_mem_nil u)

theorem crawlWebsite_inv (resolveUrl : List Char → List Char → List Char)
    (site : List Char → Option PageData) (base : List Char) (maxPages fuel : Nat) :
    CrawlInv base (crawlWebsite resolveUrl site base maxPages fuel) :=
  crawlRun_inv resolveUrl site base maxPages fuel _ (crawlInit_inv maxPages base)

/-- C4 (amended part). In every crawl run, for every resolver, site, base URL,
page bound and schedule length: no URL's fetch is initiated twice (the
visited-set check and insertion are synchronous, so dedup does hold), every
fetched URL passes the prefix scope test against `baseUrl`, and the number of
page records never exceeds the number of initiated fetches.  (The `maxPages`
bound itself is only best-effort; see the counterexample.) -/
theorem c4_crawl_invariants (resolveUrl : List Char → List Char → List Char)
    (site : List Char → Option PageData) (base : List Char) (maxPages fuel : Nat) :
    (crawlWebsite resolveUrl site base maxPages fuel).fetched.Nodup ∧
    (∀ u ∈ (crawlWebsite resolveUrl site base maxPages fuel).fetched,
      strStartsWith u base = true) ∧
    (crawlWebsite resolveUrl site base maxPages fuel).pages.length
      ≤ (crawlWebsite resolveUrl site base maxPages fuel).fetched.length := by
  obtain ⟨h1, _, h3, h4⟩ := crawlWebsite_inv resolveUrl site base maxPages fuel
  refine ⟨h1.of_append_right, ?_, h4⟩
  intro u hu
  exact h3 u (List.mem_append_right _ hu)

/-- The three-page demo site: the base page links to `b` and `c` (absolute,
in-scope URLs), which are leaf pages.  Every page has non-empty text. -/
def demoSite (u : List Char) : Option PageData :=
  if u = "http://s/".data then
    some (PageData.mk "A".data ["http://s/b".data, "http://s/c".data])
  else if u = "http://s/b".data then some (PageData.mk "B".data [])
  else if u = "http://s/c".data then some (PageData.mk "C".data [])
  else none

/-- Node's `url.resolve(base, href)` for an absolute `href`: the href itself.
(The demo sites below only use hrefs of this shape or relative-path hrefs,
handled by `resolveRel` further down.) -/
def resolveAbs (base href : List Char) : List Char := href

/-- C4 (counterexample to the page bound).  On the three-page demo site with
`maxPages = 2`, the finished crawl holds 3 page records.  The fetches of `b`
and `c` are both initiated while only page `A` has been pushed (the recursive
calls are not awaited, and the entry check runs at initiation), and each
in-flight fetch pushes its page unconditionally on completion — on every
schedule the two pushes land after the bound is reached. -/
theorem c4_crawl_bound_overshoot :
    2 < (crawlWebsite resolveAbs demoSite "http://s/".data 2 5).pages.length := by
  decide

/-- Witness for C4's amended invariants on the demo crawl. -/
theorem c4_crawl_invariants_witness :
    (crawlWebsite resolveAbs demoSite "http://s/".data 2 5).fetched.Nodup ∧
    (∀ u ∈ (crawlWebsite resolveAbs demoSite "http://s/".data 2 5).fetched,
      strStartsWith u "http://s/".data = true) ∧
    (crawlWebsite resolveAbs demoSite "http://s/".data 2 5).pages.length
      ≤ (crawlWebsite resolveAbs demoSite "http://s/".data 2 5).fetched.length :=
  c4_crawl_invariants resolveAbs demoSite "http://s/".data 2 5

/- =========== C5: which URL is a link resolved against? =================

   The code computes `urlModule.resolve(baseUrl, link.split("#")[0])` — it
   resolves every link against the crawl root `baseUrl`.  The spec sentence
   says the link is resolved "against the current page's URL (handling
   relative paths)".  The two agree on absolute hrefs but not on relative
   hrefs found on pages deeper than the root. -/

/-- The follow-set the spec's sentence describes.  Modelled from the spec:
identical to `linkTargets` except that the link is resolved against the URL
of the page it was found on (`pageUrl`) instead of the crawl root. -/
def linkTargetsSpec (resolveUrl : List Char → List Char → List Char)
    (base pageUrl : List Char) (links : List (List Char)) : List (List Char) :=
  ((links.filter (fun l => !l.isEmpty)).map
    (fun l => resolveUrl pageUrl (stripFragment l))).filter
      (fun r => strStartsWith r base)

/-- Everything of `s` up to and including its last '/'. -/
def dropLastSegment (s : List Char) : List Char :=
  (s.reverse.dropWhile (fun c => c != '/')).reverse

/-- Node's `url.resolve(base, href)` for a relative-path `href` (no scheme, no
leading '/', no '..', no query — the only shapes used below) replaces
everything after the last '/' of the base with the href:
`url.resolve("http://s/a", "d") = "http://s/d"`,
`url.resolve("http://s/a/b/", "d") = "http://s/a/b/d"`,
`url.resolve("http://s/a", "a/b/") = "http://s/a/b/"`. -/
def resolveRel (base href : List Char) : List Char := dropLastSegment base ++ href

/-- C5 (counterexample).  Crawling with base `http://s/a`, the page
`http://s/a/b/` is itself reachable (a link `a/b/` on the base page resolves
to it and passes the scope test).  A relative link `d` on that page: the
claim resolves it against the page to `http://s/a/b/d`, which starts with the
base and so would be followed; the code resolves it against the base to
`http://s/d`, which fails the prefix test and is not followed.  The followed
set is not the one the claim describes. -/
theorem c5_resolution_base_not_page :
    "http://s/a/b/".data ∈ linkTargets resolveRel "http://s/a".data ["a/b/".data] ∧
    linkTargets resolveRel "http://s/a".data ["d".data] = [] ∧
    linkTargetsSpec resolveRel "http://s/a".data "http://s/a/b/".data ["d".data]
      = ["http://s/a/b/d".data] ∧
    linkTargets resolveRel "http://s/a".data ["d".data]
      ≠ linkTargetsSpec resolveRel "http://s/a".data "http://s/a/b/".data ["d".data] := by
  decide

/-- C5 (amended).  A discovered link is followed iff it is non-empty and,
after stripping any fragment and resolving it against the literal `baseUrl`
(the crawl root — not the current page's URL), the resolved URL's string
representation starts with the `baseUrl` string; the URL followed is that
base-resolved URL.  The follow-set does not depend on the page URL at all. -/
theorem c5_follow_iff (resolveUrl : List Char → List Char → List Char)
    (base : List Char) (links : List (List Char)) (r : List Char) :
    r ∈ linkTargets resolveUrl base links ↔
      ((∃ l, l ∈ links ∧ l ≠ [] ∧ r = resolveUrl base (stripFragment l)) ∧
        strStartsWith r base = true) := by
  constructor
  · intro hr
    rw [linkTargets] at hr
    have h2 := (List.mem_filter.mp hr).2
    have h1 := (List.mem_filter.mp hr).1
    obtain ⟨l, hl, hres⟩ := List.mem_map.mp h1
    have hl1 := (List.mem_filter.mp hl).1
    have hl2 := (List.mem_filter.mp hl).2
    refine ⟨⟨l, hl1, ?_, hres.symm⟩, h2⟩
    intro hc
    rw [hc] at hl2
    simp at hl2
  · rintro ⟨⟨l, hl, hne, rfl⟩, hscope⟩
    rw [linkTargets]
    apply List.mem_filter.mpr
    refine ⟨List.mem_map.mpr ⟨l, ?_, rfl⟩, hscope⟩
    apply List.mem_filter.mpr
    refine ⟨hl, ?_⟩
    cases l with
    | nil => exact absurd rfl hne
    | cons a t => rfl

/-- Witness for C5's amended follow rule: a fragment-carrying absolute link on
the demo site is followed, at its fragment-stripped resolution. -/
theorem c5_follow_iff_witness :
    "http://s/b".data ∈ linkTargets resolveAbs "http://s/".data ["http://s/b#x".data] :=
  (c5_follow_iff resolveAbs "http://s/".data ["http://s/b#x".data] "http://s/b".data).mpr
    ⟨⟨"http://s/b#x".data, by decide, by decide, by decide⟩, by decide⟩
